import Mathlib

/-!
Verification of the font-bundle patcher (`src/font/font_patch.py`).

The development shallowly embeds the program over `List Nat` byte buffers:

* zstd decompression (`zstandard.ZstdDecompressor.decompress` with
  `max_output_size`) is an oracle `D : List Nat → Nat → Option (List Nat)`
  taking the input slice and the output cap; `none` models a raised
  exception (which the program swallows).
* zstd compression (`ZstdCompressor(level=22).compress`) is an oracle
  `C : List Nat → List Nat`; level 22 makes it a deterministic function.
* glyph rasterization (PIL) is an oracle `G : Nat → List (List Bool)`
  giving the 16×16 boolean bitmap for a codepoint.
* `sys.exit(1)` failure paths are modelled by `Option`: `none` is the
  fatal exit taken before any file write.
-/

set_option autoImplicit false

/-- Glyph width in pixels (`GLYPH_W`). -/
def GLYPH_W : Nat := 16

/-- Glyph height in pixels (`GLYPH_H`). -/
def GLYPH_H : Nat := 16

/-- Bytes per bitmap row (`BYTES_PER_ROW`). -/
def BYTES_PER_ROW : Nat := 2

/-- Bytes per glyph (`BYTES_PER_GLYPH = GLYPH_H * BYTES_PER_ROW`). -/
def BYTES_PER_GLYPH : Nat := GLYPH_H * BYTES_PER_ROW

/-- Decompressed table size (`EXPECTED_SIZE = 0x10000 * BYTES_PER_GLYPH`). -/
def EXPECTED_SIZE : Nat := 0x10000 * BYTES_PER_GLYPH

/-- The zstd frame magic (`MAGIC = b"\x28\xB5\x2F\xFD"`). -/
def MAGIC : List Nat := [0x28, 0xB5, 0x2F, 0xFD]

/-- All start offsets of `MAGIC` inside `raw`, ascending.  This is the
`positions` list built by the `while raw.find(MAGIC, p)` loop in
`find_font_bundle`: stepping `p = i + 1` yields every occurrence,
overlapping and adjacent ones included. -/
def magicPositions (raw : List Nat) : List Nat :=
  (List.range raw.length).filter (fun i => decide ((raw.drop i).take 4 = MAGIC))

/-- The `limit` computed by `find_font_bundle` for an accepted offset `pos`:
`nxt = [x for x in positions if x > pos]`, then `nxt[0] - pos` if `nxt`
is nonempty, else `len(raw) - pos`. -/
def limitFor (raw : List Nat) (pos : Nat) : Nat :=
  match (magicPositions raw).filter (fun x => decide (pos < x)) with
  | [] => raw.length - pos
  | q :: _ => q - pos

/-- The candidate loop of `find_font_bundle`: for each `pos` in turn,
attempt `d.decompress(raw[pos:], max_output_size=EXPECTED_SIZE)`; on an
exception (`none`) or a wrong decompressed size move on; otherwise return
`(pos, dec, limit)`. -/
def tryCandidates (raw : List Nat) (D : List Nat → Nat → Option (List Nat)) :
    List Nat → Option (Nat × List Nat × Nat)
  | [] => none
  | pos :: rest =>
    match D (raw.drop pos) EXPECTED_SIZE with
    | some dec =>
      if dec.length = EXPECTED_SIZE then
        some (pos, dec, limitFor raw pos)
      else
        tryCandidates raw D rest
    | none => tryCandidates raw D rest

/-- `find_font_bundle(raw)`: scan for magic offsets and validate candidates
in ascending order.  `none` models the `sys.exit(1)` taken when no valid
bundle exists (`BundleNotFound`). -/
def find_font_bundle (raw : List Nat) (D : List Nat → Nat → Option (List Nat)) :
    Option (Nat × List Nat × Nat) :=
  tryCandidates raw D (magicPositions raw)

/-- The decompression attempts issued by the candidate loop, in order, as
`(offset, max_output_size)` pairs; the loop stops after the first accepted
candidate. -/
def decompressCallsAux (raw : List Nat) (D : List Nat → Nat → Option (List Nat)) :
    List Nat → List (Nat × Nat)
  | [] => []
  | pos :: rest =>
    (pos, EXPECTED_SIZE) ::
      match D (raw.drop pos) EXPECTED_SIZE with
      | some dec =>
        if dec.length = EXPECTED_SIZE then [] else decompressCallsAux raw D rest
      | none => decompressCallsAux raw D rest

/-- The full sequence of decompression attempts made by `find_font_bundle`. -/
def decompressCalls (raw : List Nat) (D : List Nat → Nat → Option (List Nat)) :
    List (Nat × Nat) :=
  decompressCallsAux raw D (magicPositions raw)

/-- A magic offset validates iff decompression there succeeds with output
of exactly `EXPECTED_SIZE` bytes (`len(dec) == EXPECTED_SIZE`). -/
def validAt (raw : List Nat) (D : List Nat → Nat → Option (List Nat)) (p : Nat) : Prop :=
  ∃ dec, D (raw.drop p) EXPECTED_SIZE = some dec ∧ dec.length = EXPECTED_SIZE

/-- The row encoder of `main`: `v = 0; for bit, on in enumerate(row):
if on: v |= 1 << (15 - bit)`, threading the accumulator and the running
column index. -/
def packRowAux : Nat → Nat → List Bool → Nat
  | v, _, [] => v
  | v, bit, px :: rest =>
    packRowAux (if px then v ||| (1 <<< (15 - bit)) else v) (bit + 1) rest

/-- The 16-bit value `v` built from one bitmap row. -/
def packRow (row : List Bool) : Nat := packRowAux 0 0 row

/-- One iteration of the per-glyph write loop of `main`: with
`off = cp * BYTES_PER_GLYPH` and `v` packed from row `r`, store `v & 0xFF`
at `off + r*2` and `(v >> 8) & 0xFF` at `off + r*2 + 1`. -/
def glyphStep (cp : Nat) (bm : List (List Bool)) (b : List Nat) (r : Nat) : List Nat :=
  let v := packRow (bm.getD r [])
  (b.set (cp * BYTES_PER_GLYPH + r * 2) (v &&& 0xFF)).set
    (cp * BYTES_PER_GLYPH + r * 2 + 1) ((v >>> 8) &&& 0xFF)

/-- The per-glyph write loop of `main`: `for r in range(GLYPH_H)` run
`glyphStep` on the bundle. -/
def writeGlyph (cp : Nat) (bm : List (List Bool)) (bundle : List Nat) : List Nat :=
  (List.range GLYPH_H).foldl (glyphStep cp bm) bundle

/-- The patch loop of `main`: `for (start, end) in ranges: for cp in
range(start, end): ...` rasterize with `G` and write the glyph. -/
def patchAll (G : Nat → List (List Bool)) (ranges : List (Nat × Nat))
    (bundle : List Nat) : List Nat :=
  ranges.foldl (fun b se =>
    (List.range' se.1 (se.2 - se.1)).foldl (fun b2 cp => writeGlyph cp (G cp) b2) b) bundle

/-- The 32-byte packed form of a glyph bitmap: per row, the low byte of
`packRow row` then its high byte, exactly the bytes `main` stores at
consecutive offsets of the glyph region. -/
def pack : List (List Bool) → List Nat
  | [] => []
  | row :: rest =>
    (packRow row &&& 0xFF) :: ((packRow row >>> 8) &&& 0xFF) :: pack rest

/-- Modelled from the spec: the repository ships no `unpack`; §4.2 requires
one as the exact inverse of `pack` ("emit as two bytes, low byte of the
16-bit value first", "bit `(15 - column)` is set iff that pixel is on").
It rebuilds each row's 16-bit value from a low/high byte pair and reads
column `col` from bit `15 - col`. -/
def unpack : List Nat → List (List Bool)
  | lo :: hi :: rest =>
    ((List.range 16).map (fun col => Nat.testBit (lo + 256 * hi) (15 - col))) :: unpack rest
  | _ => []

/-- Python slice assignment `raw[offset:offset+len(comp)] = comp` on the
copied buffer: replace exactly `comp.length` bytes starting at `offset`. -/
def splice (raw : List Nat) (offset : Nat) (comp : List Nat) : List Nat :=
  raw.take offset ++ comp ++ raw.drop (offset + comp.length)

/-- The tail of `main`: compress the edited bundle, bail out
(`BundleTooLarge`, modelled as `none`) when `len(comp) > limit`, else
splice the stream back in; the file write happens only on `some`. -/
def recompressAndSplice (C : List Nat → List Nat) (bundle raw : List Nat)
    (offset limit : Nat) : Option (List Nat) :=
  let comp := C bundle
  if comp.length > limit then none else some (splice raw offset comp)

/-- Concrete fixture: a buffer with magic occurrences at 0 and 4. -/
def rawTwo : List Nat := MAGIC ++ MAGIC ++ [0, 0]

/-- Concrete fixture: a buffer that is exactly one magic occurrence. -/
def rawOne : List Nat := MAGIC

/-- Concrete fixture: six bytes with no magic occurrence semantics needed. -/
def raw9 : List Nat := [9, 9, 9, 9, 9, 9]

/-- Concrete fixture: a decompressed table of `EXPECTED_SIZE` zero bytes. -/
def tblBytes : List Nat := List.replicate EXPECTED_SIZE 0

/-- Concrete decompression oracle: succeeds exactly on 6-byte slices. -/
def DSix : List Nat → Nat → Option (List Nat) :=
  fun s _ => if s.length = 6 then some tblBytes else none

/-- Concrete decompression oracle that always fails. -/
def Dnone : List Nat → Nat → Option (List Nat) := fun _ _ => none

/-- Concrete compression oracle with constant two-byte output. -/
def CTwo : List Nat → List Nat := fun _ => [1, 2]

/-- Concrete rasterization oracle: every pixel on. -/
def GOn : Nat → List (List Bool) := fun _ => List.replicate 16 (List.replicate 16 true)

/-- Concrete all-off 16×16 bitmap. -/
def bmOff : List (List Bool) := List.replicate 16 (List.replicate 16 false)

/-- Concrete all-on 16×16 bitmap. -/
def bmOn : List (List Bool) := List.replicate 16 (List.replicate 16 true)

/-- Concrete 40-byte bundle. -/
def bundle40 : List Nat := List.replicate 40 7

theorem mem_magicPositions_lt {raw : List Nat} {p : Nat} (h : p ∈ magicPositions raw) :
    p < raw.length :=
  List.mem_range.mp (List.mem_filter.mp h).1

theorem magicPositions_pairwise (raw : List Nat) :
    (magicPositions raw).Pairwise (· < ·) :=
  List.Pairwise.filter _ (List.pairwise_lt_range raw.length)

theorem tryCandidates_some {raw : List Nat} {D : List Nat → Nat → Option (List Nat)}
    {ps : List Nat} {pos lim : Nat} {tbl : List Nat}
    (h : tryCandidates raw D ps = some (pos, tbl, lim)) :
    pos ∈ ps ∧ validAt raw D pos ∧ tbl.length = EXPECTED_SIZE ∧ lim = limitFor raw pos := by
  induction ps with
  | nil => simp [tryCandidates] at h
  | cons p rest ih =>
    simp only [tryCandidates] at h
    split at h
    · rename_i dec hD
      split at h
      · rename_i hlen
        simp only [Option.some.injEq, Prod.mk.injEq] at h
        obtain ⟨rfl, rfl, rfl⟩ := h
        exact ⟨List.mem_cons_self _ _, ⟨dec, hD, hlen⟩, hlen, rfl⟩
      · rcases ih h with ⟨h1, h2, h3, h4⟩
        exact ⟨List.mem_cons_of_mem _ h1, h2, h3, h4⟩
    · rcases ih h with ⟨h1, h2, h3, h4⟩
      exact ⟨List.mem_cons_of_mem _ h1, h2, h3, h4⟩

theorem tryCandidates_none {raw : List Nat} {D : List Nat → Nat → Option (List Nat)}
    {ps : List Nat} (h : ∀ p ∈ ps, ¬ validAt raw D p) :
    tryCandidates raw D ps = none := by
  induction ps with
  | nil => rfl
  | cons p rest ih =>
    have step : ∀ q ∈ rest, ¬ validAt raw D q :=
      fun q hq => h q (List.mem_cons_of_mem _ hq)
    simp only [tryCandidates]
    split
    · rename_i dec hD
      have hlen : ¬ dec.length = EXPECTED_SIZE := fun hl =>
        h p (List.mem_cons_self _ _) ⟨dec, hD, hl⟩
      rw [if_neg hlen]
      exact ih step
    · exact ih step

theorem tryCandidates_first {raw : List Nat} {D : List Nat → Nat → Option (List Nat)}
    {O : Nat} {ps : List Nat}
    (hmem : O ∈ ps) (hv : validAt raw D O)
    (hu : ∀ p ∈ ps, p ≠ O → ¬ validAt raw D p) :
    (tryCandidates raw D ps).map Prod.fst = some O := by
  induction ps with
  | nil => cases hmem
  | cons p rest ih =>
    simp only [tryCandidates]
    by_cases hpO : p = O
    · subst hpO
      rcases hv with ⟨dec, hD, hlen⟩
      split
      · rename_i dec2 hD2
        rw [hD] at hD2
        injection hD2 with hdec
        subst hdec
        rw [if_pos hlen]
        rfl
      · rename_i hD2
        rw [hD] at hD2
        cases hD2
    · have hnv : ¬ validAt raw D p := hu p (List.mem_cons_self _ _) hpO
      have hmem' : O ∈ rest := by
        rcases List.mem_cons.mp hmem with hOp | hOr
        · exact absurd hOp.symm hpO
        · exact hOr
      have step : ∀ q ∈ rest, q ≠ O → ¬ validAt raw D q :=
        fun q hq => hu q (List.mem_cons_of_mem _ hq)
      split
      · rename_i dec hD
        have hlen : ¬ dec.length = EXPECTED_SIZE := fun hl => hnv ⟨dec, hD, hl⟩
        rw [if_neg hlen]
        exact ih hmem' step
      · exact ih hmem' step

theorem limitFor_no_next {raw : List Nat} {pos : Nat}
    (h : ∀ q ∈ magicPositions raw, ¬ pos < q) :
    limitFor raw pos = raw.length - pos := by
  have hf : (magicPositions raw).filter (fun x => decide (pos < x)) = [] := by
    rw [List.filter_eq_nil_iff]
    intro q hq
    simpa using h q hq
  simp [limitFor, hf]

theorem limitFor_next {raw : List Nat} {pos q0 : Nat} {t : List Nat}
    (h : (magicPositions raw).filter (fun x => decide (pos < x)) = q0 :: t) :
    limitFor raw pos = q0 - pos ∧ q0 ∈ magicPositions raw ∧ pos < q0 ∧
      ∀ r ∈ magicPositions raw, pos < r → q0 ≤ r := by
  have hq0 : q0 ∈ (magicPositions raw).filter (fun x => decide (pos < x)) := by
    rw [h]; exact List.mem_cons_self _ _
  have hq0' := List.mem_filter.mp hq0
  have hpw : (q0 :: t).Pairwise (· < ·) := by
    rw [← h]; exact List.Pairwise.filter _ (magicPositions_pairwise raw)
  refine ⟨by simp [limitFor, h], hq0'.1, by simpa using hq0'.2, ?_⟩
  intro r hr hpr
  have hrf : r ∈ (magicPositions raw).filter (fun x => decide (pos < x)) :=
    List.mem_filter.mpr ⟨hr, by simpa using hpr⟩
  rw [h] at hrf
  rcases List.mem_cons.mp hrf with hrq | hrt
  · exact Nat.le_of_eq hrq.symm
  · exact Nat.le_of_lt ((List.pairwise_cons.mp hpw).1 r hrt)

theorem limitFor_le {raw : List Nat} {pos : Nat} (hpos : pos ≤ raw.length) :
    pos + limitFor raw pos ≤ raw.length := by
  cases hf : (magicPositions raw).filter (fun x => decide (pos < x)) with
  | nil =>
    have hl : limitFor raw pos = raw.length - pos := by simp [limitFor, hf]
    omega
  | cons q0 t =>
    rcases limitFor_next hf with ⟨hl, hq0, hpq0, _⟩
    have hq0len : q0 < raw.length := mem_magicPositions_lt hq0
    omega

theorem length_splice {raw comp : List Nat} {offset : Nat}
    (h : offset + comp.length ≤ raw.length) :
    (splice raw offset comp).length = raw.length := by
  simp [splice]
  omega

theorem getElem?_splice (raw comp : List Nat) (offset i : Nat) (h : offset ≤ raw.length) :
    (splice raw offset comp)[i]? =
      if i < offset then raw[i]?
      else if i < offset + comp.length then comp[i - offset]?
      else raw[i]? := by
  have htl : (raw.take offset).length = offset := by simp; omega
  have htl2 : (raw.take offset ++ comp).length = offset + comp.length := by simp; omega
  by_cases h1 : i < offset
  · rw [if_pos h1, splice, List.getElem?_append_left (by omega),
      List.getElem?_append_left (by omega), List.getElem?_take_of_lt h1]
  · rw [if_neg h1]
    by_cases h2 : i < offset + comp.length
    · rw [if_pos h2, splice, List.getElem?_append_left (by omega),
        List.getElem?_append_right (by omega), htl]
    · rw [if_neg h2, splice, List.getElem?_append_right (by omega), htl2,
        List.getElem?_drop]
      have heq : offset + comp.length + (i - (offset + comp.length)) = i := by omega
      rw [heq]

theorem packRowAux_testBit_of_ne : ∀ (rest : List Bool) (v bit j : Nat),
    (∀ q, q < rest.length → 15 - (bit + q) ≠ j) →
    (packRowAux v bit rest).testBit j = v.testBit j := by
  intro rest
  induction rest with
  | nil => intro v bit j _; rfl
  | cons px rest ih =>
    intro v bit j hq
    simp only [packRowAux]
    rw [ih _ (bit + 1) j ?later]
    case later =>
      intro q hqlen
      have := hq (q + 1) (by simpa using Nat.succ_lt_succ hqlen)
      omega
    have h0 : 15 - bit ≠ j := by
      have := hq 0 (Nat.succ_pos _)
      simpa using this
    cases px with
    | true =>
      simp [Nat.testBit_or, Nat.shiftLeft_eq, Nat.testBit_two_pow_of_ne h0]
    | false => simp

theorem packRowAux_testBit_recover : ∀ (rest : List Bool) (v bit p : Nat),
    bit + rest.length ≤ 16 → p < rest.length →
    (∀ j, j ≤ 15 - bit → v.testBit j = false) →
    (packRowAux v bit rest).testBit (15 - (bit + p)) = rest.getD p false := by
  intro rest
  induction rest with
  | nil => intro v bit p _ hp _; cases hp
  | cons px rest ih =>
    intro v bit p hle hp hv
    simp only [List.length_cons] at hle hp
    simp only [packRowAux]
    cases p with
    | zero =>
      have hbit : bit ≤ 15 := by omega
      simp only [Nat.add_zero]
      rw [packRowAux_testBit_of_ne rest _ (bit + 1) (15 - bit) ?hne]
      case hne =>
        intro q hqlen
        omega
      have hvb : v.testBit (15 - bit) = false := hv (15 - bit) (Nat.le_refl _)
      cases px with
      | true =>
        simp [Nat.testBit_or, Nat.shiftLeft_eq, Nat.testBit_two_pow_self, hvb]
      | false => simp [hvb]
    | succ p2 =>
      have harith : bit + (p2 + 1) = (bit + 1) + p2 := by omega
      rw [harith]
      have hgd : (px :: rest).getD (p2 + 1) false = rest.getD p2 false := by
        simp [List.getD]
      rw [hgd]
      have hbit : bit ≤ 14 := by omega
      refine ih _ (bit + 1) p2 (by omega) (by omega) ?_
      intro j hj
      have hjne : 15 - bit ≠ j := by omega
      have hvj : v.testBit j = false := hv j (by omega)
      cases px with
      | true =>
        simp [Nat.testBit_or, Nat.shiftLeft_eq, Nat.testBit_two_pow_of_ne hjne, hvj]
      | false => simp [hvj]

theorem packRowAux_lt : ∀ (rest : List Bool) (v bit : Nat),
    v < 2 ^ 16 → packRowAux v bit rest < 2 ^ 16 := by
  intro rest
  induction rest with
  | nil => intro v bit h; exact h
  | cons px rest ih =>
    intro v bit h
    simp only [packRowAux]
    cases px with
    | false => exact ih _ _ h
    | true =>
      refine ih _ _ ?_
      have h2 : (1 <<< (15 - bit)) < 2 ^ 16 := by
        rw [Nat.shiftLeft_eq, Nat.one_mul]
        exact Nat.pow_lt_pow_right (by norm_num) (by omega)
      simpa using Nat.or_lt_two_pow h h2

theorem packRow_testBit {row : List Bool} (hlen : row.length = 16) {col : Nat}
    (hcol : col < 16) :
    (packRow row).testBit (15 - col) = row.getD col false := by
  have := packRowAux_testBit_recover row 0 0 col (by omega) (by omega)
    (fun j _ => Nat.zero_testBit j)
  simpa using this

theorem packRow_lt (row : List Bool) : packRow row < 2 ^ 16 :=
  packRowAux_lt row 0 0 (by norm_num)

theorem bytes_recover {v : Nat} (hv : v < 2 ^ 16) :
    (v &&& 0xFF) + 256 * ((v >>> 8) &&& 0xFF) = v := by
  have hlow : v &&& 0xFF = v % 256 := by
    have := Nat.and_pow_two_sub_one_eq_mod v 8
    norm_num at this
    simpa using this
  have hshift : v >>> 8 = v / 256 := by
    rw [Nat.shiftRight_eq_div_pow]
  have hdiv : v / 256 < 256 := by
    rw [Nat.div_lt_iff_lt_mul (by norm_num)]
    calc v < 2 ^ 16 := hv
    _ = 256 * 256 := by norm_num
  have hhigh : (v >>> 8) &&& 0xFF = v / 256 := by
    rw [hshift]
    have := Nat.and_pow_two_sub_one_eq_mod (v / 256) 8
    norm_num at this
    rw [this]
    exact Nat.mod_eq_of_lt hdiv
  rw [hlow, hhigh]
  exact Nat.mod_add_div v 256

theorem glyphFold_length (cp : Nat) (bm : List (List Bool)) (bundle : List Nat) :
    ∀ n : Nat, ((List.range n).foldl (glyphStep cp bm) bundle).length = bundle.length := by
  intro n
  induction n with
  | zero => rfl
  | succ n ih =>
    rw [List.range_succ, List.foldl_append]
    simp only [List.foldl_cons, List.foldl_nil, glyphStep]
    simp [List.length_set, ih]

theorem glyphFold_frame (cp : Nat) (bm : List (List Bool)) (bundle : List Nat)
    (i : Nat) :
    ∀ n : Nat,
    (∀ r, r < n → i ≠ cp * BYTES_PER_GLYPH + r * 2 ∧ i ≠ cp * BYTES_PER_GLYPH + r * 2 + 1) →
    ((List.range n).foldl (glyphStep cp bm) bundle)[i]? = bundle[i]? := by
  intro n
  induction n with
  | zero => intro _; rfl
  | succ n ih =>
    intro hi
    rw [List.range_succ, List.foldl_append]
    simp only [List.foldl_cons, List.foldl_nil, glyphStep]
    rw [List.getElem?_set_ne (hi n (Nat.lt_succ_self n)).2.symm,
      List.getElem?_set_ne (hi n (Nat.lt_succ_self n)).1.symm,
      ih (fun r hr => hi r (by omega))]

theorem glyphFold_written (cp : Nat) (bm : List (List Bool)) (bundle : List Nat)
    (r : Nat) :
    ∀ n : Nat, r < n → cp * BYTES_PER_GLYPH + r * 2 + 1 < bundle.length →
    ((List.range n).foldl (glyphStep cp bm) bundle)[cp * BYTES_PER_GLYPH + r * 2]? =
        some (packRow (bm.getD r []) &&& 0xFF) ∧
      ((List.range n).foldl (glyphStep cp bm) bundle)[cp * BYTES_PER_GLYPH + r * 2 + 1]? =
        some ((packRow (bm.getD r []) >>> 8) &&& 0xFF) := by
  intro n
  induction n with
  | zero => intro hr; cases hr
  | succ n ih =>
    intro hr hlen
    rw [List.range_succ, List.foldl_append]
    simp only [List.foldl_cons, List.foldl_nil, glyphStep]
    by_cases hrn : r = n
    · subst hrn
      have hFlen : ((List.range r).foldl (glyphStep cp bm) bundle).length = bundle.length :=
        glyphFold_length cp bm bundle r
      constructor
      · rw [List.getElem?_set_ne (by omega),
          List.getElem?_set_self (by rw [hFlen]; omega)]
      · rw [List.getElem?_set_self (by rw [List.length_set, hFlen]; omega)]
    · have hr2 : r < n := by omega
      rcases ih hr2 hlen with ⟨ih1, ih2⟩
      constructor
      · rw [List.getElem?_set_ne (by omega), List.getElem?_set_ne (by omega), ih1]
      · rw [List.getElem?_set_ne (by omega), List.getElem?_set_ne (by omega), ih2]

theorem writeGlyph_length (cp : Nat) (bm : List (List Bool)) (bundle : List Nat) :
    (writeGlyph cp bm bundle).length = bundle.length :=
  glyphFold_length cp bm bundle GLYPH_H

theorem writeGlyph_frame (cp : Nat) (bm : List (List Bool)) (bundle : List Nat)
    (i : Nat) (hi : i < cp * BYTES_PER_GLYPH ∨ cp * BYTES_PER_GLYPH + BYTES_PER_GLYPH ≤ i) :
    (writeGlyph cp bm bundle)[i]? = bundle[i]? := by
  refine glyphFold_frame cp bm bundle i GLYPH_H ?_
  intro r hr
  have hb : BYTES_PER_GLYPH = 32 := rfl
  have hg : GLYPH_H = 16 := rfl
  rw [hg] at hr
  omega

theorem writeGlyph_written (cp : Nat) (bm : List (List Bool)) (bundle : List Nat)
    (r : Nat) (hr : r < 16) (hlen : cp * BYTES_PER_GLYPH + r * 2 + 1 < bundle.length) :
    (writeGlyph cp bm bundle)[cp * BYTES_PER_GLYPH + r * 2]? =
        some (packRow (bm.getD r []) &&& 0xFF) ∧
      (writeGlyph cp bm bundle)[cp * BYTES_PER_GLYPH + r * 2 + 1]? =
        some ((packRow (bm.getD r []) >>> 8) &&& 0xFF) :=
  glyphFold_written cp bm bundle r GLYPH_H hr hlen

theorem unpack_pack {bm : List (List Bool)} (h : ∀ row ∈ bm, row.length = 16) :
    unpack (pack bm) = bm := by
  induction bm with
  | nil => rfl
  | cons row rest ih =>
    have hrow : row.length = 16 := h row (List.mem_cons_self _ _)
    have hrest : ∀ r ∈ rest, r.length = 16 := fun r hr => h r (List.mem_cons_of_mem _ hr)
    simp only [pack, unpack]
    rw [ih hrest]
    congr 1
    simp only [bytes_recover (packRow_lt row)]
    apply List.ext_getElem
    · simp [hrow]
    · intro i h1 h2
      simp only [List.getElem_map, List.getElem_range]
      rw [packRow_testBit hrow (by simpa [hrow] using h2)]
      rw [List.getD_eq_getElem?_getD, List.getElem?_eq_getElem h2]
      rfl

theorem patchFold_frame (G : Nat → List (List Bool)) (i : Nat) :
    ∀ (cps : List Nat) (b : List Nat),
    (∀ cp ∈ cps, i < cp * BYTES_PER_GLYPH ∨ cp * BYTES_PER_GLYPH + BYTES_PER_GLYPH ≤ i) →
    (cps.foldl (fun b2 cp => writeGlyph cp (G cp) b2) b)[i]? = b[i]? := by
  intro cps
  induction cps with
  | nil => intro b _; rfl
  | cons cp rest ih =>
    intro b hcp
    simp only [List.foldl_cons]
    rw [ih _ (fun q hq => hcp q (List.mem_cons_of_mem _ hq)),
      writeGlyph_frame cp (G cp) b i (hcp cp (List.mem_cons_self _ _))]

theorem patchAll_frame_aux (G : Nat → List (List Bool)) (i : Nat) :
    ∀ (ranges : List (Nat × Nat)) (bundle : List Nat),
    (∀ se ∈ ranges, ∀ cp ∈ List.range' se.1 (se.2 - se.1),
      i < cp * BYTES_PER_GLYPH ∨ cp * BYTES_PER_GLYPH + BYTES_PER_GLYPH ≤ i) →
    (patchAll G ranges bundle)[i]? = bundle[i]? := by
  intro ranges
  induction ranges with
  | nil => intro b _; rfl
  | cons se rest ih =>
    intro b hi
    simp only [patchAll, List.foldl_cons]
    simp only [patchAll] at ih
    rw [ih _ (fun t ht => hi t (List.mem_cons_of_mem _ ht)),
      patchFold_frame G i _ b (hi se (List.mem_cons_self _ _))]

theorem decompressCallsAux_spec (raw : List Nat) (D : List Nat → Nat → Option (List Nat)) :
    ∀ ps : List Nat,
      (∀ c ∈ decompressCallsAux raw D ps, c.2 = EXPECTED_SIZE) ∧
      ((decompressCallsAux raw D ps).map Prod.fst).Sublist ps := by
  intro ps
  induction ps with
  | nil => exact ⟨fun c hc => absurd hc (List.not_mem_nil c), List.nil_sublist _⟩
  | cons p rest ih =>
    constructor
    · intro c hc
      simp only [decompressCallsAux] at hc
      rcases List.mem_cons.mp hc with h1 | h2
      · rw [h1]
      · split at h2
        · split at h2
          · cases h2
          · exact ih.1 c h2
        · exact ih.1 c h2
    · simp only [decompressCallsAux, List.map_cons]
      refine List.Sublist.cons₂ p ?_
      split
      · split
        · simp
        · exact ih.2
      · exact ih.2

theorem decompressCalls_mem {raw : List Nat} {D : List Nat → Nat → Option (List Nat)}
    {c : Nat × Nat} (hc : c ∈ decompressCalls raw D) :
    c.2 = EXPECTED_SIZE ∧ c.1 ∈ magicPositions raw := by
  rcases decompressCallsAux_spec raw D (magicPositions raw) with ⟨hsnd, hsub⟩
  exact ⟨hsnd c hc, hsub.subset (List.mem_map_of_mem Prod.fst hc)⟩

theorem decompressCalls_ascending (raw : List Nat) (D : List Nat → Nat → Option (List Nat)) :
    ((decompressCalls raw D).map Prod.fst).Pairwise (· < ·) :=
  List.Pairwise.sublist (decompressCallsAux_spec raw D (magicPositions raw)).2
    (magicPositions_pairwise raw)

/-- C1: in a buffer whose magic occurrences all fail to decompress to
exactly `EXPECTED_SIZE` bytes except for exactly one occurrence `O`,
`find_font_bundle` (which scans every occurrence in ascending order and
accepts the first exact-size candidate) returns offset `O`. -/
theorem C1_locate_unique_valid (raw : List Nat) (D : List Nat → Nat → Option (List Nat))
    (O : Nat) (hmem : O ∈ magicPositions raw) (hvalid : validAt raw D O)
    (huniq : ∀ p ∈ magicPositions raw, p ≠ O → ¬ validAt raw D p) :
    (find_font_bundle raw D).map Prod.fst = some O :=
  tryCandidates_first hmem hvalid huniq

/-- C2: patching codepoint `c` encodes row `r` as a 16-bit value whose bit
`15 - col` is set iff the pixel at column `col` is on, and writes its low
byte then its high byte at `table[c*32 + 2r]` and `table[c*32 + 2r + 1]`,
inside the region `table[c*32 : c*32+32]`. -/
theorem C2_glyph_encoding (c r col : Nat) (bm : List (List Bool)) (table : List Nat)
    (hc : c < 0x10000) (hr : r < 16) (hcol : col < 16)
    (hlen : table.length = EXPECTED_SIZE)
    (hbm : ∀ row ∈ bm, row.length = 16) (hbml : bm.length = 16) :
    (packRow (bm.getD r [])).testBit (15 - col) = (bm.getD r []).getD col false ∧
      (writeGlyph c bm table)[c * BYTES_PER_GLYPH + r * 2]? =
        some (packRow (bm.getD r []) &&& 0xFF) ∧
      (writeGlyph c bm table)[c * BYTES_PER_GLYPH + r * 2 + 1]? =
        some ((packRow (bm.getD r []) >>> 8) &&& 0xFF) := by
  have hrlt : r < bm.length := by omega
  have hrowmem : bm.getD r [] ∈ bm := by
    rw [List.getD_eq_getElem?_getD, List.getElem?_eq_getElem hrlt]
    simp only [Option.getD_some]
    exact List.getElem_mem hrlt
  have hrowlen : (bm.getD r []).length = 16 := hbm _ hrowmem
  have hES : EXPECTED_SIZE = 2097152 := rfl
  have hBG : BYTES_PER_GLYPH = 32 := rfl
  refine ⟨packRow_testBit hrowlen hcol, ?_⟩
  refine writeGlyph_written c bm table r hr ?_
  rw [hlen, hES, hBG]
  omega

/-- C3: `unpack` is the exact inverse of `pack` on every 16×16 boolean
grid: `unpack (pack bm) = bm`. -/
theorem C3_roundtrip (bm : List (List Bool)) (_h1 : bm.length = 16)
    (h2 : ∀ row ∈ bm, row.length = 16) : unpack (pack bm) = bm :=
  unpack_pack h2

/-- C4: when `find_font_bundle` accepts offset `pos`, the returned budget is
`q - pos` for the smallest magic occurrence `q > pos`, and `raw.length - pos`
when no occurrence follows `pos`. -/
theorem C4_budget (raw : List Nat) (D : List Nat → Nat → Option (List Nat))
    (pos lim : Nat) (tbl : List Nat)
    (h : find_font_bundle raw D = some (pos, tbl, lim)) :
    ((∀ q ∈ magicPositions raw, ¬ pos < q) → lim = raw.length - pos) ∧
      (∀ q ∈ magicPositions raw, pos < q →
        (∀ q2 ∈ magicPositions raw, pos < q2 → q ≤ q2) → lim = q - pos) := by
  rcases tryCandidates_some h with ⟨_, _, _, hlim⟩
  constructor
  · intro hnone
    rw [hlim, limitFor_no_next hnone]
  · intro q hq hpq hmin
    cases hf : (magicPositions raw).filter (fun x => decide (pos < x)) with
    | nil =>
      exfalso
      have hqf : q ∈ (magicPositions raw).filter (fun x => decide (pos < x)) :=
        List.mem_filter.mpr ⟨hq, by simpa using hpq⟩
      rw [hf] at hqf
      cases hqf
    | cons q0 t =>
      rcases limitFor_next hf with ⟨hl0, hq0mem, hposq0, hmin0⟩
      have h1 : q ≤ q0 := hmin q0 hq0mem hposq0
      have h2 : q0 ≤ q := hmin0 q hq hpq
      rw [hlim, hl0, Nat.le_antisymm h2 h1]

/-- C5: when the deterministic compression of the edited table is longer
than the budget, the pipeline fails (`BundleTooLarge`, exit 1) and nothing
is spliced or written back. -/
theorem C5_too_large (C : List Nat → List Nat) (bundle raw : List Nat)
    (offset limit : Nat) (h : limit < (C bundle).length) :
    recompressAndSplice C bundle raw offset limit = none := by
  simp only [recompressAndSplice]
  rw [if_pos h]

/-- C6: `find_font_bundle` only ever returns tables of exactly
`EXPECTED_SIZE = 2097152` bytes, and on a buffer with no magic occurrence
decompressing to exactly that size it fails (`BundleNotFound`, exit 1)
instead of returning a truncated or padded table. -/
theorem C6_table_size (raw : List Nat) (D : List Nat → Nat → Option (List Nat)) :
    (∀ pos tbl lim, find_font_bundle raw D = some (pos, tbl, lim) →
      tbl.length = EXPECTED_SIZE) ∧
    ((∀ p ∈ magicPositions raw, ∀ dec, D (raw.drop p) EXPECTED_SIZE = some dec →
        dec.length ≠ EXPECTED_SIZE) →
      find_font_bundle raw D = none) := by
  constructor
  · intro pos tbl lim h
    exact (tryCandidates_some h).2.2.1
  · intro h
    apply tryCandidates_none
    intro p hp hval
    rcases hval with ⟨dec, hdec, hlen⟩
    exact h p hp dec hdec hlen

/-- C7: patching touches only the 32-byte glyph regions of codepoints
inside the selected half-open ranges; every byte at an index outside all
those regions keeps its pre-patch value. -/
theorem C7_patch_frame (G : Nat → List (List Bool)) (ranges : List (Nat × Nat))
    (bundle : List Nat) (i : Nat)
    (hi : ∀ se ∈ ranges, ∀ cp ∈ List.range' se.1 (se.2 - se.1),
      i < cp * BYTES_PER_GLYPH ∨ cp * BYTES_PER_GLYPH + BYTES_PER_GLYPH ≤ i) :
    (patchAll G ranges bundle)[i]? = bundle[i]? :=
  patchAll_frame_aux G i ranges bundle hi

/-- C8 counterexample: the locator's decompression attempts pass
`max_output_size = EXPECTED_SIZE`, not `EXPECTED_SIZE + 1` as claimed: on
the buffer `rawOne` every attempted cap equals `EXPECTED_SIZE`, which
differs from `EXPECTED_SIZE + 1`. -/
theorem C8_counterexample :
    (decompressCalls rawOne Dnone).map Prod.snd = [EXPECTED_SIZE] ∧
      EXPECTED_SIZE ≠ EXPECTED_SIZE + 1 := by
  decide

/-- C8 (amended): every decompression attempt of the locator is made on the
byte slice starting at a magic candidate offset with output capped at
`EXPECTED_SIZE` bytes (the decompressor raises, and the candidate is
rejected, when the stream exceeds the cap), and the attempted offsets are
strictly ascending. -/
theorem C8_cap_and_order (raw : List Nat) (D : List Nat → Nat → Option (List Nat))
    (c : Nat × Nat) (hc : c ∈ decompressCalls raw D) :
    c.2 = EXPECTED_SIZE ∧ c.1 ∈ magicPositions raw ∧
      ((decompressCalls raw D).map Prod.fst).Pairwise (· < ·) :=
  ⟨(decompressCalls_mem hc).1, (decompressCalls_mem hc).2,
    decompressCalls_ascending raw D⟩

/-- C9: a successful splice writes exactly the compressed bytes at
`[offset, offset + len)`; every index below `offset`, in the remaining
budget gap, or past the region reads its original buffer byte (no
zero-filling). -/
theorem C9_splice_frame (C : List Nat → List Nat) (bundle raw out : List Nat)
    (offset limit i : Nat) (hoff : offset ≤ raw.length)
    (hout : recompressAndSplice C bundle raw offset limit = some out) :
    out[i]? =
      if i < offset then raw[i]?
      else if i < offset + (C bundle).length then (C bundle)[i - offset]?
      else raw[i]? := by
  have hsp : out = splice raw offset (C bundle) := by
    by_cases hgt : (C bundle).length > limit
    · simp [recompressAndSplice, hgt] at hout
    · simp [recompressAndSplice, hgt] at hout
      exact hout.symm
  rw [hsp, getElem?_splice raw (C bundle) offset i hoff]

/-- C10: a successful run writes back a buffer of exactly the original
length: the accepted offset is in range, the budget never exceeds
`raw.length - offset`, and the splice replaces exactly `len(comp)` bytes. -/
theorem C10_length_preserved (raw tbl : List Nat) (D : List Nat → Nat → Option (List Nat))
    (C : List Nat → List Nat) (G : Nat → List (List Bool)) (ranges : List (Nat × Nat))
    (pos lim : Nat) (out : List Nat)
    (hfind : find_font_bundle raw D = some (pos, tbl, lim))
    (hsplice : recompressAndSplice C (patchAll G ranges tbl) raw pos lim = some out) :
    out.length = raw.length := by
  rcases tryCandidates_some hfind with ⟨hmem, _, _, hlim⟩
  have hposlt : pos < raw.length := mem_magicPositions_lt hmem
  have hbound : pos + limitFor raw pos ≤ raw.length := limitFor_le (Nat.le_of_lt hposlt)
  by_cases hgt : (C (patchAll G ranges tbl)).length > lim
  · simp [recompressAndSplice, hgt] at hsplice
  · simp [recompressAndSplice, hgt] at hsplice
    rw [← hsplice]
    apply length_splice
    have hcl : (C (patchAll G ranges tbl)).length ≤ lim := Nat.le_of_not_lt hgt
    omega

theorem magicPositions_rawTwo : magicPositions rawTwo = [0, 4] := by decide

theorem tblBytes_length : tblBytes.length = EXPECTED_SIZE := by
  simp [tblBytes]

theorem DSix_drop0 : DSix (rawTwo.drop 0) EXPECTED_SIZE = none := by
  have h10 : rawTwo.length = 10 := by decide
  simp [DSix, h10]

theorem DSix_drop4 : DSix (rawTwo.drop 4) EXPECTED_SIZE = some tblBytes := by
  have h6 : (rawTwo.drop 4).length = 6 := by decide
  simp [DSix, h6]

theorem find_rawTwo : find_font_bundle rawTwo DSix = some (4, tblBytes, 6) := by
  have h6 : limitFor rawTwo 4 = 6 := by decide
  simp only [find_font_bundle]
  rw [magicPositions_rawTwo]
  simp only [tryCandidates]
  rw [DSix_drop0, DSix_drop4]
  simp [tblBytes_length, h6]

/-- C1 witness: on `rawTwo` with the oracle `DSix` only offset 4 validates,
and `find_font_bundle` returns it. -/
theorem C1_witness : (find_font_bundle rawTwo DSix).map Prod.fst = some 4 := by
  refine C1_locate_unique_valid rawTwo DSix 4 (by decide)
    ⟨tblBytes, DSix_drop4, tblBytes_length⟩ ?_
  intro p hp hne
  rw [magicPositions_rawTwo] at hp
  rcases List.mem_cons.mp hp with h0 | h4
  · subst h0
    rintro ⟨dec, hdec, hlen⟩
    rw [DSix_drop0] at hdec
    cases hdec
  · simp only [List.mem_singleton] at h4
    exact absurd h4 hne

/-- C2 witness: the encoding equations at codepoint 0, row 0, column 0 on
the all-on bitmap over the all-zero table. -/
theorem C2_witness :
    (packRow (bmOn.getD 0 [])).testBit (15 - 0) = (bmOn.getD 0 []).getD 0 false ∧
      (writeGlyph 0 bmOn tblBytes)[0 * BYTES_PER_GLYPH + 0 * 2]? =
        some (packRow (bmOn.getD 0 []) &&& 0xFF) ∧
      (writeGlyph 0 bmOn tblBytes)[0 * BYTES_PER_GLYPH + 0 * 2 + 1]? =
        some ((packRow (bmOn.getD 0 []) >>> 8) &&& 0xFF) :=
  C2_glyph_encoding 0 0 0 bmOn tblBytes (by norm_num) (by norm_num) (by norm_num)
    tblBytes_length (by decide) (by decide)

/-- C3 witness: the round trip at the all-off 16×16 grid. -/
theorem C3_witness : unpack (pack bmOff) = bmOff :=
  C3_roundtrip bmOff (by decide) (by decide)

/-- C4 witness: on `rawTwo` the bundle accepted at offset 4 has no following
occurrence, so the budget is `rawTwo.length - 4 = 6`. -/
theorem C4_witness : (6 : Nat) = rawTwo.length - 4 :=
  (C4_budget rawTwo DSix 4 6 tblBytes find_rawTwo).1 (by decide)

/-- C5 witness: with a 2-byte compression output and budget 1 the pipeline
fails without splicing. -/
theorem C5_witness : recompressAndSplice CTwo [] raw9 0 1 = none :=
  C5_too_large CTwo [] raw9 0 1 (by decide)

/-- C6 witness: on the bare magic `rawOne` with an always-failing
decompressor, `find_font_bundle` fails. -/
theorem C6_witness : find_font_bundle rawOne Dnone = none := by
  refine (C6_table_size rawOne Dnone).2 ?_
  intro p hp dec hdec
  simp [Dnone] at hdec

/-- C7 witness: patching codepoint 0 leaves byte 35 of a 40-byte bundle
untouched. -/
theorem C7_witness : (patchAll GOn [(0, 1)] bundle40)[35]? = bundle40[35]? :=
  C7_patch_frame GOn [(0, 1)] bundle40 35 (by decide)

/-- C8 witness: the attempt at offset 0 on `rawOne` carries the cap
`EXPECTED_SIZE` and the attempted offsets are ascending. -/
theorem C8_witness :
    (0, EXPECTED_SIZE).2 = EXPECTED_SIZE ∧
      (0, EXPECTED_SIZE).1 ∈ magicPositions rawOne ∧
      ((decompressCalls rawOne Dnone).map Prod.fst).Pairwise (· < ·) :=
  C8_cap_and_order rawOne Dnone (0, EXPECTED_SIZE) (by decide)

/-- C9 witness: after splicing 2 bytes at offset 1 of `raw9` with budget 4,
index 4 lies in the retained gap and reads the original byte. -/
theorem C9_witness :
    (splice raw9 1 (CTwo []))[4]? =
      if 4 < 1 then raw9[4]?
      else if 4 < 1 + (CTwo []).length then (CTwo [])[4 - 1]?
      else raw9[4]? :=
  C9_splice_frame CTwo [] raw9 (splice raw9 1 (CTwo [])) 1 4 4 (by decide)
    (by simp [recompressAndSplice, CTwo])

/-- C10 witness: a full concrete run on `rawTwo` writes back a buffer of
the original length. -/
theorem C10_witness :
    (splice rawTwo 4 (CTwo (patchAll GOn [] tblBytes))).length = rawTwo.length :=
  C10_length_preserved rawTwo tblBytes DSix CTwo GOn [] 4 6
    (splice rawTwo 4 (CTwo (patchAll GOn [] tblBytes))) find_rawTwo
    (by simp [recompressAndSplice, CTwo])
